import Mathlib

/-!
# The `variants` generator of testgrid

A shallow embedding of `variants/main.go`: the table loader `readTSVFile`,
the tag test `contains`, the emitter `generateGoFile` and `sortedKeys`.

Go strings are rendered as Lean `String`s.  Effects are made explicit: the
loader receives what `os.Open` and `csv.Reader.ReadAll` produced, the emitter
receives the outcome of each file operation and of the `gofmt` run, and
returns what it did to the file together with how the call ended.
-/

namespace Variants

/-! ## Data model -/

/-- Modelled from the spec: the record type `internal.Variant`, whose declaration
is in a package outside this source tree; its fields are the ones `readTSVFile` sets
by name. -/
structure Variant where
  Name : String
  Parallel : Bool
  CSI : Bool
  UpgradeFromCurrent : Bool
  UpgradeFromPrevious : Bool
  Serial : Bool
deriving DecidableEq, Repr

/-- A Go `map[string]internal.Variant`, as the list of its entries.  A Go map
holds one entry per key and ranges over them in an unspecified order: the order
of the list stands for that order, so a statement about every table speaks of
every iteration order. -/
abbrev VariantMap := List (String × Variant)

/-- The keys of a table, in iteration order (`for k := range data`). -/
def mapKeys (data : VariantMap) : List String :=
  data.map Prod.fst

/-- The Go expression `data[job]`: the stored entry, the zero `Variant` when absent. -/
def mapIndex : VariantMap → String → Variant
  | [], _ => ⟨"", false, false, false, false, false⟩
  | (k, v) :: rest, job => if k = job then v else mapIndex rest job

/-- The Go statement `data[job] = v`: overwrite the entry of `job`, add one if absent. -/
def mapAssign : VariantMap → String → Variant → VariantMap
  | [], job, v => [(job, v)]
  | (k, w) :: rest, job, v =>
    if k = job then (job, v) :: rest else (k, w) :: mapAssign rest job v

/-! ## Library functions used by the program -/

/-- The pieces of `cs` between separators, `cur` being the reversed piece under way. -/
def splitAux (sep : Char) : List Char → List Char → List String
  | [], cur => [String.mk cur.reverse]
  | c :: cs, cur =>
    if c = sep then String.mk cur.reverse :: splitAux sep cs []
    else splitAux sep cs (c :: cur)

/-- Go `strings.Split(s, sep)` for a one-character separator: the substrings of `s`
between occurrences of `sep`, the empty string giving one empty substring. -/
def Split (s : String) (sep : Char) : List String :=
  splitAux sep s.data []

/-- Go's `<` on strings, character by character: the first difference decides, and a
proper prefix is smaller.  (Go compares the bytes of the UTF-8 encoding, which orders
text as its code points do.) -/
def lessChars : List Char → List Char → Bool
  | _, [] => false
  | [], _ :: _ => true
  | a :: as, b :: bs =>
    if a < b then true else if b < a then false else lessChars as bs

/-- Go's `a < b` on strings. -/
def stringLess (a b : String) : Bool :=
  lessChars a.data b.data

/-- Go `sort.Strings`: the strings in increasing order (no string after a larger one). -/
def sortStrings (keys : List String) : List String :=
  keys.insertionSort (fun a b => stringLess b a = false)

/-- An operand of `fmt.Sprintf`. -/
inductive Arg where
  | str (s : String)
  | bool (b : Bool)
deriving DecidableEq, Repr

/-- How `fmt` prints a boolean. -/
def fmtBool (b : Bool) : String :=
  if b then "true" else "false"

/-- The text `fmt` substitutes for one verb applied to one operand. -/
def fmtVerb (verb : Char) : Arg → String
  | .str s =>
    if verb = 's' ∨ verb = 'v' then s
    else "%!" ++ String.singleton verb ++ "(string=" ++ s ++ ")"
  | .bool b =>
    if verb = 'v' ∨ verb = 't' then fmtBool b
    else "%!" ++ String.singleton verb ++ "(bool=" ++ fmtBool b ++ ")"

/-- Operands left over once the format is consumed, as `fmt` reports them. -/
def fmtExtra : List Arg → String
  | [] => ""
  | args => "%!(EXTRA " ++ ", ".intercalate (args.map fun a =>
      match a with
      | .str s => "string=" ++ s
      | .bool b => "bool=" ++ fmtBool b) ++ ")"

/-- Go `fmt.Sprintf` over the plain verbs: the format is copied, each `%` followed by
a verb character consumes the next operand, `%%` is a percent sign. -/
def Sprintf : List Char → List Arg → String
  | [], args => fmtExtra args
  | c :: fmt, args =>
    if c = '%' then
      match fmt, args with
      | [], _ => "%!(NOVERB)"
      | verb :: fmt1, [] =>
        if verb = '%' then "%" ++ Sprintf fmt1 []
        else "%!" ++ String.singleton verb ++ "(MISSING)" ++ Sprintf fmt1 []
      | verb :: fmt1, a :: rest =>
        if verb = '%' then "%" ++ Sprintf fmt1 (a :: rest)
        else fmtVerb verb a ++ Sprintf fmt1 rest
    else String.singleton c ++ Sprintf fmt args

/-! ## Table loader -/

/-- How a call ends: a returned value, a returned error, or a run-time panic. -/
inductive Result (α : Type) where
  | ok (val : α)
  | error (msg : String)
  | panic (msg : String)
deriving DecidableEq, Repr

/-- What `os.Open` and `ReadAll` of the tab-separated reader gave for the input file. -/
inductive Input where
  | openFailed (err : String)
  | readFailed (err : String)
  | parsed (records : List (List String))
deriving DecidableEq, Repr

/-- The Go index expression `line[i]` on a record. -/
def index (line : List String) (i : Nat) : Result String :=
  match line.get? i with
  | some s => .ok s
  | none => .panic ("runtime error: index out of range [" ++ toString i ++
      "] with length " ++ toString line.length)

/-- The Go function `contains`. -/
def contains : List String → String → Bool
  | [], _ => false
  | s :: slice, target => if s = target then true else contains slice target

/-- The `Variant` literal of the loop body, from the variant name and the tag field. -/
def variantOf (variants extendedVariants : String) : Variant :=
  let extVarSplit := Split extendedVariants ','
  { Name := variants
    Parallel := contains extVarSplit "parallel"
    CSI := contains extVarSplit "csi"
    UpgradeFromCurrent := contains extVarSplit "upgrade"
    UpgradeFromPrevious := contains extVarSplit "upgrade-minor"
    Serial := contains extVarSplit "serial" }

/-- One iteration of the loop of `readTSVFile` on the record `line`. -/
def readRow (data : VariantMap) (line : List String) : Result VariantMap :=
  match index line 0 with
  | .error e => .error e
  | .panic e => .panic e
  | .ok job =>
    match index line 1 with
    | .error e => .error e
    | .panic e => .panic e
    | .ok variants =>
      match index line 2 with
      | .error e => .error e
      | .panic e => .panic e
      | .ok extendedVariants => .ok (mapAssign data job (variantOf variants extendedVariants))

/-- The loop of `readTSVFile` over the records from index 1 on. -/
def readRows (data : VariantMap) : List (List String) → Result VariantMap
  | [] => .ok data
  | line :: rest =>
    match readRow data line with
    | .ok data1 => readRows data1 rest
    | .error e => .error e
    | .panic e => .panic e

/-- The Go function `readTSVFile`, on the outcome of opening and parsing the file. -/
def readTSVFile : Input → Result VariantMap
  | .openFailed err => .error err
  | .readFailed err => .error err
  | .parsed records =>
    if records.length < 1 then .error "invalid TSV file: not enough records"
    else readRows [] (records.drop 1)

/-! ## Source emitter -/

/-- The outcome of each effect of `generateGoFile`: the error of `os.Create`, of the
`n`-th `WriteString` (counted from 0) and of the `gofmt` run, `none` for success. -/
structure Env where
  create : Option String
  write : Nat → Option String
  gofmt : Option String

/-- How a call of `generateGoFile` ends: it returns its `error` value (`none` for `nil`),
or the process exits with a status. -/
inductive Outcome where
  | returned (err : Option String)
  | exited (status : Nat)
deriving DecidableEq, Repr

/-- A run of `generateGoFile`: how it ended and the text it wrote to the output file
before `gofmt` ran, `none` when the file was not created. -/
structure Run where
  outcome : Outcome
  file : Option String
deriving DecidableEq, Repr

/-- The Go function `sortedKeys`. -/
def sortedKeys (data : VariantMap) : List String :=
  sortStrings (mapKeys data)

/-- The local `header` of `generateGoFile`. -/
def header : String :=
  "\npackage generated\n\nimport\t\"github.com/bertinatto/testgrid/internal\"\n\n// This file is generated by go generate. DO NOT EDIT.\n\nvar Variants = map[string]internal.Variant\x7b\n"

/-- The local `footer` of `generateGoFile`. -/
def footer : String :=
  "\n\x7d\n"

/-- The local `entryFmt` of `generateGoFile`. -/
def entryFmt : String :=
  "\n\"%s\": \x7b\n\tName: \"%s\",\n\tParallel: %v,\n\tCSI: %v,\n\tUpgradeFromPrevious: %v,\n\tUpgradeFromCurrent: %v,\n\tSerial: %v,\n\x7d,"

/-- The `line` of the emitting loop: `fmt.Sprintf(entryFmt, job, v.Name, ...)`. -/
def entryLine (job : String) (v : Variant) : String :=
  Sprintf entryFmt.data [.str job, .str v.Name, .bool v.Parallel, .bool v.CSI,
    .bool v.UpgradeFromPrevious, .bool v.UpgradeFromCurrent, .bool v.Serial]

/-- The emitting loop of `generateGoFile` over the remaining jobs; `n` numbers the next
write and `text` is the file so far.  Gives the error of the first failed write, if
any, the number of the next write and the file. -/
def writeEntries (env : Env) (data : VariantMap) :
    List String → Nat → String → Option String × Nat × String
  | [], n, text => (none, n, text)
  | job :: jobs, n, text =>
    let v := mapIndex data job
    let line := entryLine job v
    match env.write n with
    | some err => (some err, n, text)
    | none => writeEntries env data jobs (n + 1) (text ++ line)

/-- The body of `generateGoFile` from `os.Create` on: the value it returns and the file. -/
def generateBody (env : Env) (data : VariantMap) : Option String × Option String :=
  match env.create with
  | some err => (some err, none)
  | none =>
    match env.write 0 with
    | some err => (some err, some "")
    | none =>
      match writeEntries env data (sortedKeys data) 1 header with
      | (some err, _, text) => (some err, some text)
      | (none, n, text) =>
        match env.write n with
        | some err => (some err, some text)
        | none => (none, some (text ++ footer))

/-- The Go function `generateGoFile`: the body, then the deferred `gofmt` run, which
exits the process with status 1 when it fails. -/
def generateGoFile (env : Env) (data : VariantMap) : Run :=
  let r := generateBody env data
  match env.gofmt with
  | some _ => ⟨.exited 1, r.2⟩
  | none => ⟨.returned r.1, r.2⟩

/-- The environment in which every effect succeeds. -/
def okEnv : Env :=
  ⟨none, fun _ => none, none⟩


/-! ## The order of strings and `sort.Strings` -/

theorem lessChars_iff_lex (a b : List Char) :
    lessChars a b = true ↔ List.Lex (· < ·) a b := by
  induction a generalizing b with
  | nil =>
    cases b with
    | nil => simp [lessChars, List.Lex.not_nil_right]
    | cons y ys => simpa [lessChars] using List.Lex.nil
  | cons x xs ih =>
    cases b with
    | nil => simp [lessChars, List.Lex.not_nil_right]
    | cons y ys =>
      rcases lt_trichotomy x y with h | h | h
      · simpa [lessChars, h] using List.Lex.rel h
      · subst h
        simp [lessChars, ih, List.Lex.cons_iff]
      · have hn : ¬ x < y := not_lt_of_lt h
        simp only [lessChars, hn, h, if_true, if_false]
        constructor
        · intro hf
          cases hf
        · intro hl
          cases hl with
          | cons hl => exact absurd h (lt_irrefl _)
          | rel hl => exact absurd hl hn

theorem stringLess_iff (a b : String) : stringLess a b = true ↔ a < b := by
  rw [String.lt_iff_toList_lt]
  exact lessChars_iff_lex a.data b.data

theorem stringLess_false_iff (a b : String) : stringLess b a = false ↔ a ≤ b := by
  rw [← not_lt, ← stringLess_iff]
  simp

theorem sortStrings_eq (keys : List String) :
    sortStrings keys = keys.insertionSort (· ≤ ·) := by
  unfold sortStrings
  induction keys with
  | nil => rfl
  | cons k ks ih =>
    simp only [List.insertionSort]
    rw [ih]
    generalize List.insertionSort (· ≤ ·) ks = l
    induction l with
    | nil => rfl
    | cons x xs ihx =>
      simp only [List.orderedInsert]
      by_cases h : k ≤ x
      · rw [if_pos h, if_pos ((stringLess_false_iff k x).2 h)]
      · rw [if_neg h, if_neg (fun hx => h ((stringLess_false_iff k x).1 hx)), ihx]

theorem sortStrings_perm (keys : List String) : (sortStrings keys).Perm keys := by
  rw [sortStrings_eq]
  exact List.perm_insertionSort _ keys

theorem sortStrings_sorted (keys : List String) : (sortStrings keys).Sorted (· ≤ ·) := by
  rw [sortStrings_eq]
  exact List.sorted_insertionSort _ keys

theorem sortStrings_eq_of_perm {l₁ l₂ : List String} (h : l₁.Perm l₂) :
    sortStrings l₁ = sortStrings l₂ :=
  List.eq_of_perm_of_sorted
    (((sortStrings_perm l₁).trans h).trans (sortStrings_perm l₂).symm)
    (sortStrings_sorted l₁) (sortStrings_sorted l₂)

theorem sortStrings_strict {keys : List String} (h : keys.Nodup) :
    (sortStrings keys).Sorted (· < ·) := by
  have hs := sortStrings_sorted keys
  have hn : (sortStrings keys).Nodup := (sortStrings_perm keys).nodup_iff.2 h
  exact (List.Sorted.lt_of_le hs hn)

theorem mem_sortStrings {keys : List String} {k : String} :
    k ∈ sortStrings keys ↔ k ∈ keys :=
  (sortStrings_perm keys).mem_iff

/-! ## Tables -/

theorem mem_mapKeys_mapAssign (m : VariantMap) (k : String) (v : Variant) (k' : String) :
    k' ∈ mapKeys (mapAssign m k v) ↔ k' = k ∨ k' ∈ mapKeys m := by
  induction m with
  | nil => simp [mapAssign, mapKeys]
  | cons p rest ih =>
    obtain ⟨a, w⟩ := p
    by_cases h : a = k
    · subst h
      simp [mapAssign, mapKeys]
    · simp only [mapAssign, if_neg h]
      simp only [mapKeys, List.map_cons, List.mem_cons] at ih ⊢
      rw [ih]
      tauto

theorem mapAssign_nodup (m : VariantMap) (k : String) (v : Variant)
    (h : (mapKeys m).Nodup) : (mapKeys (mapAssign m k v)).Nodup := by
  induction m with
  | nil => simp [mapAssign, mapKeys]
  | cons p rest ih =>
    obtain ⟨a, w⟩ := p
    have h1 : a ∉ mapKeys rest ∧ (mapKeys rest).Nodup := by
      simpa [mapKeys] using h
    by_cases hk : a = k
    · subst hk
      simpa [mapAssign, mapKeys] using h
    · simp only [mapAssign, if_neg hk]
      have h2 : a ∉ mapKeys (mapAssign rest k v) := by
        rw [mem_mapKeys_mapAssign]
        rintro (e | e)
        · exact hk e
        · exact h1.1 e
      have h3 := ih h1.2
      simp only [mapKeys, List.map_cons, List.nodup_cons] at h2 h3 ⊢
      exact ⟨h2, h3⟩

theorem mapIndex_mapAssign (m : VariantMap) (k : String) (v : Variant) (k' : String) :
    mapIndex (mapAssign m k v) k' = if k' = k then v else mapIndex m k' := by
  induction m with
  | nil =>
    by_cases h : k = k'
    · subst h
      simp [mapAssign, mapIndex]
    · have h' : ¬ k' = k := fun e => h e.symm
      simp [mapAssign, mapIndex, h, h']
  | cons p rest ih =>
    obtain ⟨a, w⟩ := p
    by_cases h : a = k
    · subst h
      by_cases h2 : a = k'
      · subst h2
        simp [mapAssign, mapIndex]
      · have h2' : ¬ k' = a := fun e => h2 e.symm
        simp [mapAssign, mapIndex, h2, h2']
    · simp only [mapAssign, if_neg h, mapIndex]
      by_cases h2 : a = k'
      · subst h2
        simp [h]
      · simp only [if_neg h2, ih]

theorem mem_iff_mapIndex (m : VariantMap) (h : (mapKeys m).Nodup) (k : String) (v : Variant) :
    (k, v) ∈ m ↔ k ∈ mapKeys m ∧ mapIndex m k = v := by
  induction m with
  | nil => simp [mapKeys]
  | cons p rest ih =>
    obtain ⟨a, w⟩ := p
    have h1 : a ∉ mapKeys rest ∧ (mapKeys rest).Nodup := by
      simpa [mapKeys] using h
    have ih' := ih h1.2
    by_cases hk : a = k
    · subst hk
      have hno : (a, v) ∉ rest := fun hm => h1.1 (ih'.1 hm).1
      simp only [List.mem_cons, Prod.mk.injEq, true_and, mapKeys, List.map_cons, true_or,
        mapIndex, if_true]
      constructor
      · rintro (e | e)
        · exact e.symm
        · exact absurd e hno
      · intro e
        exact Or.inl e.symm
    · have hk' : ¬ k = a := fun e => hk e.symm
      simp only [List.mem_cons, Prod.mk.injEq, hk', false_and, false_or, mapKeys,
        List.map_cons, mapIndex, if_neg hk]
      exact ih'

theorem mem_mapAssign (m : VariantMap) (h : (mapKeys m).Nodup) (k : String) (v : Variant)
    (k' : String) (v' : Variant) :
    (k', v') ∈ mapAssign m k v ↔ (k' = k ∧ v' = v) ∨ (k' ≠ k ∧ (k', v') ∈ m) := by
  rw [mem_iff_mapIndex _ (mapAssign_nodup m k v h), mem_iff_mapIndex _ h,
    mem_mapKeys_mapAssign, mapIndex_mapAssign]
  by_cases e : k' = k
  · subst e
    simp [eq_comm]
  · simp [e]

theorem mapAssign_of_not_mem (m : VariantMap) (k : String) (v : Variant)
    (h : k ∉ mapKeys m) : mapAssign m k v = m ++ [(k, v)] := by
  induction m with
  | nil => rfl
  | cons p rest ih =>
    obtain ⟨a, w⟩ := p
    have h1 : ¬ a = k ∧ k ∉ mapKeys rest := by
      simpa [mapKeys, eq_comm] using h
    simp [mapAssign, h1.1, ih h1.2]

theorem mapIndex_of_not_mem (m : VariantMap) (k : String) (h : k ∉ mapKeys m) :
    mapIndex m k = ⟨"", false, false, false, false, false⟩ := by
  induction m with
  | nil => rfl
  | cons p rest ih =>
    obtain ⟨a, w⟩ := p
    have h1 : ¬ a = k ∧ k ∉ mapKeys rest := by
      simpa [mapKeys, eq_comm] using h
    simp [mapIndex, h1.1, ih h1.2]

theorem mapIndex_perm {m₁ m₂ : VariantMap} (h : m₁.Perm m₂) (hn : (mapKeys m₁).Nodup)
    (k : String) : mapIndex m₁ k = mapIndex m₂ k := by
  have hk : (mapKeys m₁).Perm (mapKeys m₂) := h.map _
  have hn2 : (mapKeys m₂).Nodup := hk.nodup_iff.1 hn
  by_cases hm : k ∈ mapKeys m₁
  · have h1 : (k, mapIndex m₁ k) ∈ m₁ := (mem_iff_mapIndex m₁ hn k _).2 ⟨hm, rfl⟩
    have h2 : (k, mapIndex m₁ k) ∈ m₂ := h.mem_iff.1 h1
    exact ((mem_iff_mapIndex m₂ hn2 k _).1 h2).2.symm
  · have hm2 : k ∉ mapKeys m₂ := fun e => hm (hk.mem_iff.2 e)
    rw [mapIndex_of_not_mem m₁ k hm, mapIndex_of_not_mem m₂ k hm2]

/-! ## The loading loop -/

theorem readRow_three (data : VariantMap) (job name tags : String) (more : List String) :
    readRow data (job :: name :: tags :: more) =
      .ok (mapAssign data job (variantOf name tags)) := rfl

theorem readRow_short (data : VariantMap) (line : List String) (h : line.length < 3) :
    ∃ msg, readRow data line = .panic msg := by
  match line, h with
  | [], _ => exact ⟨_, rfl⟩
  | [_], _ => exact ⟨_, rfl⟩
  | [_, _], _ => exact ⟨_, rfl⟩
  | _ :: _ :: _ :: more, h => simp at h; omega

theorem three_fields (line : List String) (h : 3 ≤ line.length) :
    ∃ job name tags more, line = job :: name :: tags :: more := by
  match line, h with
  | [], h => simp at h
  | [_], h => simp at h
  | [_, _], h => simp at h
  | job :: name :: tags :: more, _ => exact ⟨job, name, tags, more, rfl⟩

theorem readRow_ok (data : VariantMap) (line : List String) (t : VariantMap)
    (h : readRow data line = .ok t) :
    ∃ job name tags more, line = job :: name :: tags :: more ∧
      t = mapAssign data job (variantOf name tags) := by
  by_cases hl : 3 ≤ line.length
  · obtain ⟨job, name, tags, more, rfl⟩ := three_fields line hl
    rw [readRow_three] at h
    exact ⟨job, name, tags, more, rfl, (Result.ok.inj h).symm⟩
  · obtain ⟨msg, hm⟩ := readRow_short data line (by omega)
    rw [hm] at h
    cases h

theorem readRows_cons_three (data : VariantMap) (job name tags : String)
    (more : List String) (rest : List (List String)) :
    readRows data ((job :: name :: tags :: more) :: rest) =
      readRows (mapAssign data job (variantOf name tags)) rest := rfl

theorem readRows_cons_ok (data : VariantMap) (line : List String)
    (rest : List (List String)) (t : VariantMap) (h : readRows data (line :: rest) = .ok t) :
    ∃ job name tags more, line = job :: name :: tags :: more ∧
      readRows (mapAssign data job (variantOf name tags)) rest = .ok t := by
  by_cases hl : 3 ≤ line.length
  · obtain ⟨job, name, tags, more, rfl⟩ := three_fields line hl
    exact ⟨job, name, tags, more, rfl, h⟩
  · obtain ⟨msg, hm⟩ := readRow_short data line (by omega)
    simp only [readRows, hm] at h
    cases h

theorem readRows_total (rows : List (List String)) (h : ∀ line ∈ rows, 3 ≤ line.length) :
    ∀ data, ∃ t, readRows data rows = .ok t := by
  induction rows with
  | nil => exact fun data => ⟨data, rfl⟩
  | cons line rest ih =>
    intro data
    obtain ⟨job, name, tags, more, rfl⟩ := three_fields line (h _ (List.mem_cons_self _ _))
    rw [readRows_cons_three]
    exact ih (fun l hl => h l (List.mem_cons_of_mem _ hl)) _

theorem readRows_ok_three (rows : List (List String)) :
    ∀ data t, readRows data rows = .ok t → ∀ line ∈ rows, 3 ≤ line.length := by
  induction rows with
  | nil => intro _ _ _ line hl; cases hl
  | cons r rest ih =>
    intro data t h line hl
    obtain ⟨job, name, tags, more, rfl, h'⟩ := readRows_cons_ok data r rest t h
    rcases List.mem_cons.1 hl with e | e
    · subst e; simp
    · exact ih _ t h' line e

theorem readRows_not_error (rows : List (List String)) :
    ∀ data msg, readRows data rows ≠ .error msg := by
  induction rows with
  | nil => intro data msg h; cases h
  | cons r rest ih =>
    intro data msg h
    by_cases hl : 3 ≤ r.length
    · obtain ⟨job, name, tags, more, rfl⟩ := three_fields r hl
      rw [readRows_cons_three] at h
      exact ih _ msg h
    · obtain ⟨m, hm⟩ := readRow_short data r (by omega)
      simp only [readRows, hm] at h
      cases h

theorem readRows_take (rows : List (List String)) (h : ∀ line ∈ rows, 3 ≤ line.length) :
    ∀ data, readRows data (rows.map (List.take 3)) = readRows data rows := by
  induction rows with
  | nil => intro data; rfl
  | cons line rest ih =>
    intro data
    obtain ⟨job, name, tags, more, rfl⟩ := three_fields line (h _ (List.mem_cons_self _ _))
    simp only [List.map_cons, List.take_succ_cons, List.take_zero, readRows_cons_three]
    exact ih (fun l hl => h l (List.mem_cons_of_mem _ hl)) _

theorem readRows_entries (rows : List (List String)) :
    ∀ data t, (mapKeys data).Nodup → readRows data rows = .ok t →
      (mapKeys t).Nodup ∧ ∀ job v, (job, v) ∈ t ↔
        (∃ before row after name tags, rows = before ++ row :: after ∧
          row[0]? = some job ∧ row[1]? = some name ∧ row[2]? = some tags ∧
          (∀ l ∈ after, l[0]? ≠ some job) ∧ v = variantOf name tags) ∨
        ((job, v) ∈ data ∧ ∀ l ∈ rows, l[0]? ≠ some job) := by
  induction rows with
  | nil =>
    intro data t hn h
    cases h
    refine ⟨hn, fun job v => ?_⟩
    simp
  | cons r rest ih =>
    intro data t hn h
    obtain ⟨j, n, tg, more, rfl, h'⟩ := readRows_cons_ok data r rest t h
    obtain ⟨hnt, hmem⟩ := ih _ t (mapAssign_nodup data j _ hn) h'
    refine ⟨hnt, fun job v => ?_⟩
    rw [hmem, mem_mapAssign data hn]
    constructor
    · rintro (⟨before, row, after, name, tags, e, h0, h1, h2, hafter, hv⟩ | ⟨hd, hrest⟩)
      · exact Or.inl ⟨_ :: before, row, after, name, tags, by rw [e]; rfl, h0, h1, h2,
          hafter, hv⟩
      · rcases hd with ⟨ej, ev⟩ | ⟨hne, hd⟩
        · subst ej
          exact Or.inl ⟨[], _, rest, n, tg, rfl, rfl, rfl, by simp, hrest, ev⟩
        · refine Or.inr ⟨hd, fun l hl => ?_⟩
          rcases List.mem_cons.1 hl with e | e
          · subst e
            simpa [eq_comm] using hne
          · exact hrest l e
    · rintro (⟨before, row, after, name, tags, e, h0, h1, h2, hafter, hv⟩ | ⟨hd, hall⟩)
      · cases before with
        | nil =>
          simp only [List.nil_append, List.cons.injEq] at e
          obtain ⟨e1, e2⟩ := e
          subst e1 e2
          simp only [List.getElem?_cons_zero, List.getElem?_cons_succ, Option.some.injEq] at h0 h1 h2
          subst h0 h1 h2
          exact Or.inr ⟨Or.inl ⟨rfl, hv⟩, hafter⟩
        | cons b bs =>
          simp only [List.cons_append, List.cons.injEq] at e
          exact Or.inl ⟨bs, row, after, name, tags, e.2, h0, h1, h2, hafter, hv⟩
      · have hne : job ≠ j := by
          have := hall _ (List.mem_cons_self _ _)
          simpa [eq_comm] using this
        exact Or.inr ⟨Or.inr ⟨hne, hd⟩, fun l hl => hall l (List.mem_cons_of_mem _ hl)⟩

theorem readRows_distinct (rows : List (List String)) :
    ∀ data, (∀ line ∈ rows, 3 ≤ line.length) → (rows.map (fun l => l[0]?)).Nodup →
      (∀ row ∈ rows, ∀ k ∈ mapKeys data, row[0]? ≠ some k) →
      readRows data rows = .ok (data ++ rows.map
        (fun l => (l.getD 0 "", variantOf (l.getD 1 "") (l.getD 2 "")))) := by
  induction rows with
  | nil => intro data _ _ _; simp [readRows]
  | cons r rest ih =>
    intro data h3 hn hd
    obtain ⟨job, name, tags, more, rfl⟩ := three_fields r (h3 _ (List.mem_cons_self _ _))
    have hjob : job ∉ mapKeys data := fun hk =>
      hd _ (List.mem_cons_self _ _) job hk rfl
    have hn' : (∀ l ∈ rest, ¬ l[0]? = some job) ∧ (rest.map (fun l => l[0]?)).Nodup := by
      simpa using hn
    rw [readRows_cons_three, mapAssign_of_not_mem data job _ hjob]
    rw [ih _ (fun l hl => h3 l (List.mem_cons_of_mem _ hl)) hn'.2]
    · simp
    · intro line hl k hk
      have hk' : k ∈ mapKeys data ∨ k = job := by
        simpa [mapKeys] using hk
      rcases hk' with hk' | hk'
      · exact hd line (List.mem_cons_of_mem _ hl) k hk'
      · subst hk'
        exact hn'.1 line hl

/-! ## The emitting loop -/

theorem foldl_append (l : List String) (a : String) :
    l.foldl (· ++ ·) a = a ++ l.foldl (· ++ ·) "" := by
  induction l generalizing a with
  | nil => simp
  | cons x xs ih =>
    simp only [List.foldl_cons]
    rw [ih (a ++ x), ih ("" ++ x), String.empty_append, String.append_assoc]

theorem join_cons (x : String) (l : List String) :
    String.join (x :: l) = x ++ String.join l := by
  simp only [String.join, List.foldl_cons, String.empty_append]
  exact foldl_append l x

theorem writeEntries_ok (env : Env) (data : VariantMap) :
    ∀ (keys : List String) (n : Nat) (text : String),
      (∀ m, n ≤ m → m < n + keys.length → env.write m = none) →
      writeEntries env data keys n text = (none, n + keys.length,
        text ++ String.join (keys.map fun job => entryLine job (mapIndex data job))) := by
  intro keys
  induction keys with
  | nil => intro n text _; simp [writeEntries, String.join]
  | cons k ks ih =>
    intro n text h
    have h0 : env.write n = none := h n (Nat.le_refl _) (by simp)
    simp only [writeEntries, h0]
    rw [ih (n + 1) _ (fun m h1 h2 => h m (by omega) (by simp only [List.length_cons]; omega))]
    simp only [List.length_cons, List.map_cons, join_cons, String.append_assoc]
    congr 2
    omega

theorem writeEntries_fail (env : Env) (data : VariantMap) :
    ∀ (keys : List String) (n : Nat) (text : String) (i : Nat) (e : String),
      n ≤ i → i < n + keys.length → env.write i = some e →
      (∀ m, n ≤ m → m < i → env.write m = none) →
      (writeEntries env data keys n text).1 = some e := by
  intro keys
  induction keys with
  | nil => intro n text i e h1 h2; simp at h2; omega
  | cons k ks ih =>
    intro n text i e h1 h2 he hbefore
    by_cases hi : i = n
    · subst hi
      simp only [writeEntries, he]
    · have h0 : env.write n = none := hbefore n (Nat.le_refl _) (by omega)
      simp only [writeEntries, h0]
      exact ih (n + 1) _ i e (by omega) (by simp only [List.length_cons] at h2; omega) he
        (fun m hm1 hm2 => hbefore m (by omega) hm2)

theorem writeEntries_congr (env : Env) (d₁ d₂ : VariantMap)
    (h : ∀ k, mapIndex d₁ k = mapIndex d₂ k) :
    ∀ (keys : List String) (n : Nat) (text : String),
      writeEntries env d₁ keys n text = writeEntries env d₂ keys n text := by
  intro keys
  induction keys with
  | nil => intro n text; rfl
  | cons k ks ih =>
    intro n text
    simp only [writeEntries, h k, ih]

theorem generateBody_ok (env : Env) (data : VariantMap) (hc : env.create = none)
    (hw : ∀ n, n < (sortedKeys data).length + 2 → env.write n = none) :
    generateBody env data = (none, some (header ++
      String.join ((sortedKeys data).map fun job => entryLine job (mapIndex data job)) ++
      footer)) := by
  have h0 : env.write 0 = none := hw 0 (by omega)
  have hl : env.write (1 + (sortedKeys data).length) = none := hw _ (by omega)
  simp only [generateBody, hc, h0]
  rw [writeEntries_ok env data _ 1 header (fun m _ h2 => hw m (by omega))]
  simp only [hl]

theorem generateBody_create (env : Env) (data : VariantMap) (e : String)
    (hc : env.create = some e) : generateBody env data = (some e, none) := by
  simp only [generateBody, hc]

theorem generateBody_fail (env : Env) (data : VariantMap) (hc : env.create = none)
    (i : Nat) (e : String) (hi : i < (sortedKeys data).length + 2)
    (he : env.write i = some e) (hbefore : ∀ m, m < i → env.write m = none) :
    (generateBody env data).1 = some e := by
  by_cases h0 : i = 0
  · subst h0
    simp only [generateBody, hc, he]
  · have hw0 : env.write 0 = none := hbefore 0 (by omega)
    by_cases hlast : i = 1 + (sortedKeys data).length
    · subst hlast
      simp only [generateBody, hc, hw0]
      rw [writeEntries_ok env data _ 1 header (fun m _ h2 => hbefore m h2)]
      simp only [he]
    · have hf := writeEntries_fail env data (sortedKeys data) 1 header i e (by omega)
        (by omega) he (fun m _ h2 => hbefore m h2)
      simp only [generateBody, hc, hw0]
      generalize writeEntries env data (sortedKeys data) 1 header = r at hf
      obtain ⟨r1, r2, r3⟩ := r
      simp only at hf
      subst hf
      rfl

theorem generateGoFile_congr (env : Env) {d₁ d₂ : VariantMap} (h : d₁.Perm d₂)
    (hn : (mapKeys d₁).Nodup) : generateGoFile env d₁ = generateGoFile env d₂ := by
  have hk : sortedKeys d₁ = sortedKeys d₂ := sortStrings_eq_of_perm (h.map _)
  have hb : generateBody env d₁ = generateBody env d₂ := by
    simp only [generateBody, hk]
    rw [writeEntries_congr env d₁ d₂ (mapIndex_perm h hn)]
  simp only [generateGoFile, hb]

/-! ## Tags -/

theorem contains_iff (slice : List String) (target : String) :
    contains slice target = true ↔ target ∈ slice := by
  induction slice with
  | nil => simp [contains]
  | cons s rest ih =>
    by_cases h : s = target
    · subst h
      simp [contains]
    · have h' : ¬ target = s := fun e => h e.symm
      simp [contains, h, h', ih]

theorem splitAux_pieces (sep : Char) (cs : List Char) :
    ∀ cur, ∃ h t, splitAux sep cs cur = h :: t ∧
      h.data ++ (t.map fun x => sep :: x.data).flatten = cur.reverse ++ cs := by
  induction cs with
  | nil => intro cur; exact ⟨_, [], rfl, by simp⟩
  | cons c cs ih =>
    intro cur
    by_cases hc : c = sep
    · subst hc
      obtain ⟨h', t', e, hd⟩ := ih []
      refine ⟨String.mk cur.reverse, h' :: t', by simp only [splitAux, if_true, e], ?_⟩
      simp only [List.map_cons, List.flatten_cons, List.reverse_nil, List.nil_append] at hd ⊢
      rw [← hd]
      simp
    · obtain ⟨h', t', e, hd⟩ := ih (c :: cur)
      refine ⟨h', t', by simp only [splitAux, if_neg hc, e], ?_⟩
      rw [hd]
      simp

theorem splitAux_free (sep : Char) (cs : List Char) :
    ∀ cur, sep ∉ cur → ∀ t ∈ splitAux sep cs cur, sep ∉ t.data := by
  induction cs with
  | nil =>
    intro cur hcur t ht
    simp only [splitAux, List.mem_singleton] at ht
    subst ht
    simpa using hcur
  | cons c cs ih =>
    intro cur hcur t ht
    by_cases hc : c = sep
    · subst hc
      simp only [splitAux, if_true, List.mem_cons] at ht
      rcases ht with e | e
      · subst e
        simpa using hcur
      · exact ih [] (by simp) t e
    · simp only [splitAux, if_neg hc] at ht
      refine ih (c :: cur) ?_ t ht
      simp only [List.mem_cons, not_or]
      exact ⟨fun e => hc e.symm, hcur⟩

theorem intercalate_go (s : String) (l : List String) :
    ∀ acc, String.intercalate.go acc s l = acc ++ String.join (l.map fun x => s ++ x) := by
  induction l with
  | nil => intro acc; simp [String.intercalate.go, String.join]
  | cons x xs ih =>
    intro acc
    simp only [String.intercalate.go, ih, List.map_cons, join_cons, String.append_assoc]

theorem Split_intercalate (s : String) (sep : Char) :
    (String.singleton sep).intercalate (Split s sep) = s := by
  obtain ⟨h, t, e, hd⟩ := splitAux_pieces sep s.data []
  unfold Split
  rw [e]
  simp only [String.intercalate, intercalate_go]
  apply String.ext
  rw [String.data_append, String.join_eq]
  simp only [List.map_map]
  simp only [List.reverse_nil, List.nil_append] at hd
  rw [← hd]
  congr 2

theorem Split_free (s : String) (sep : Char) : ∀ t ∈ Split s sep, sep ∉ t.data :=
  splitAux_free sep s.data [] (by simp)

theorem readRows_keys (rows : List (List String)) :
    ∀ data t, readRows data rows = .ok t →
      ∀ job, job ∈ mapKeys t ↔ job ∈ mapKeys data ∨ ∃ row ∈ rows, row[0]? = some job := by
  induction rows with
  | nil =>
    intro data t h job
    cases h
    simp
  | cons r rest ih =>
    intro data t h job
    obtain ⟨j, n, tg, more, rfl, h'⟩ := readRows_cons_ok data r rest t h
    rw [ih _ t h' job, mem_mapKeys_mapAssign]
    simp only [List.mem_cons, exists_eq_or_imp, List.getElem?_cons_zero, Option.some.injEq]
    constructor
    · rintro ((e | e) | e)
      · exact Or.inr (Or.inl e.symm)
      · exact Or.inl e
      · exact Or.inr (Or.inr e)
    · rintro (e | e | e)
      · exact Or.inl (Or.inr e)
      · exact Or.inl (Or.inl e.symm)
      · exact Or.inr e

theorem contains_eq_decide (slice : List String) (target : String) :
    contains slice target = decide (target ∈ slice) := by
  rw [Bool.eq_iff_iff]
  simp [contains_iff]

theorem variantOf_eq (name tags : String) :
    variantOf name tags =
      { Name := name
        Parallel := decide ("parallel" ∈ Split tags ',')
        CSI := decide ("csi" ∈ Split tags ',')
        UpgradeFromCurrent := decide ("upgrade" ∈ Split tags ',')
        UpgradeFromPrevious := decide ("upgrade-minor" ∈ Split tags ',')
        Serial := decide ("serial" ∈ Split tags ',') } := by
  simp only [variantOf, contains_eq_decide]

theorem fmtBool_eq_toString (b : Bool) : fmtBool b = toString b := by
  cases b <;> rfl

set_option maxRecDepth 100000 in
theorem entryLine_eq (job : String) (v : Variant) :
    entryLine job v =
      "\n\"" ++ job ++ "\": \x7b\n\tName: \"" ++ v.Name ++
      "\",\n\tParallel: " ++ fmtBool v.Parallel ++
      ",\n\tCSI: " ++ fmtBool v.CSI ++
      ",\n\tUpgradeFromPrevious: " ++ fmtBool v.UpgradeFromPrevious ++
      ",\n\tUpgradeFromCurrent: " ++ fmtBool v.UpgradeFromCurrent ++
      ",\n\tSerial: " ++ fmtBool v.Serial ++ ",\n\x7d," := by
  simp only [String.append_assoc]
  rfl

/-! ## The claims -/

/-- C1, refuted as stated: a header-only input has fewer than two records, and
`readTSVFile` returns the empty table for it, not the "not enough records" error. -/
theorem readTSVFile_header_only_accepted :
    ([["job", "variant", "extended"]] : List (List String)).length < 2 ∧
    readTSVFile (.parsed [["job", "variant", "extended"]]) = .ok [] ∧
    ¬ (∀ records : List (List String), records.length < 2 →
        readTSVFile (.parsed records) = .error "invalid TSV file: not enough records") := by
  refine ⟨by decide, by decide, fun h => ?_⟩
  have h1 := h [["job", "variant", "extended"]] (by decide)
  revert h1
  decide

/-- C1, amended: `readTSVFile` returns the "not enough records" error exactly for a
parsed input with no record at all; an input made of a header row alone is accepted and
gives the empty table. -/
theorem readTSVFile_not_enough_records :
    readTSVFile (.parsed []) = .error "invalid TSV file: not enough records" ∧
    (∀ hdr : List String, readTSVFile (.parsed [hdr]) = .ok []) ∧
    (∀ (records : List (List String)) (msg : String),
      readTSVFile (.parsed records) = .error msg ↔
        (records = [] ∧ msg = "invalid TSV file: not enough records")) := by
  refine ⟨rfl, fun _ => rfl, fun records msg => ?_⟩
  cases records with
  | nil =>
    simp only [readTSVFile, List.length_nil, Nat.lt_one_iff, if_true, Result.error.injEq,
      true_and]
    exact eq_comm
  | cons hdr rows =>
    simp only [readTSVFile, List.length_cons, Nat.lt_one_iff, Nat.add_one_ne_zero, if_false,
      List.drop_succ_cons, List.drop_zero, false_and, iff_false, reduceCtorEq]
    exact readRows_not_error rows [] msg

/-- C2: the `Variant` built for a data row has the row's second field as `Name`, and each
of its five booleans is true exactly when its own token is one of the pieces of the tag
field split on the comma, by equality of strings; the pieces are comma-free and give the
tag field back when joined with commas.  Tags `parallel,csi` set `Parallel` and `CSI`
only, `upgrade-minor` sets `UpgradeFromPrevious` only, and empty, differently-cased or
longer tokens set nothing. -/
theorem variantOf_flags :
    (∀ name tags : String,
      (variantOf name tags).Name = name ∧
      ((variantOf name tags).Parallel = true ↔ "parallel" ∈ Split tags ',') ∧
      ((variantOf name tags).CSI = true ↔ "csi" ∈ Split tags ',') ∧
      ((variantOf name tags).UpgradeFromCurrent = true ↔ "upgrade" ∈ Split tags ',') ∧
      ((variantOf name tags).UpgradeFromPrevious = true ↔ "upgrade-minor" ∈ Split tags ',') ∧
      ((variantOf name tags).Serial = true ↔ "serial" ∈ Split tags ',')) ∧
    (∀ tags : String, ",".intercalate (Split tags ',') = tags ∧
      ∀ t ∈ Split tags ',', ',' ∉ t.data) ∧
    (∀ (data : VariantMap) (job name tags : String) (more : List String),
      readRow data (job :: name :: tags :: more) =
        .ok (mapAssign data job (variantOf name tags))) ∧
    (∀ name : String, variantOf name "parallel,csi" =
      { Name := name, Parallel := true, CSI := true, UpgradeFromCurrent := false,
        UpgradeFromPrevious := false, Serial := false }) ∧
    (∀ name : String, variantOf name "upgrade-minor" =
      { Name := name, Parallel := false, CSI := false, UpgradeFromCurrent := false,
        UpgradeFromPrevious := true, Serial := false }) ∧
    (∀ name : String, variantOf name ",Parallel,xserial,upgrade-major, csi,," =
      { Name := name, Parallel := false, CSI := false, UpgradeFromCurrent := false,
        UpgradeFromPrevious := false, Serial := false }) := by
  refine ⟨fun name tags => ⟨rfl, ?_, ?_, ?_, ?_, ?_⟩, fun tags => ⟨?_, Split_free tags ','⟩,
    fun _ _ _ _ _ => rfl, fun _ => ?_, fun _ => ?_, fun _ => ?_⟩
  · exact contains_iff _ _
  · exact contains_iff _ _
  · exact contains_iff _ _
  · exact contains_iff _ _
  · exact contains_iff _ _
  · exact Split_intercalate tags ','
  · rfl
  · rfl
  · rfl

/-- C3: in the table `readTSVFile` returns, each key has one entry, the keys are the
first fields of the data rows, and the entry of a key comes from the last data row that
carries the key: its `Name` is that row's second field and each flag tells whether its
token is one of the pieces of that row's third field split on the comma (the pieces
being comma-free and giving the field back when joined with commas).  With two rows for
`job-a` the later one gives the entry. -/
theorem readTSVFile_last_row_wins (records : List (List String)) (t : VariantMap)
    (h : readTSVFile (.parsed records) = .ok t) :
    (mapKeys t).Nodup ∧
    (∀ job, job ∈ mapKeys t ↔ ∃ row ∈ records.drop 1, row[0]? = some job) ∧
    (∀ job v, (job, v) ∈ t ↔
      ∃ before row after name tags, records.drop 1 = before ++ row :: after ∧
        row[0]? = some job ∧ row[1]? = some name ∧ row[2]? = some tags ∧
        (∀ l ∈ after, l[0]? ≠ some job) ∧
        v = { Name := name
              Parallel := decide ("parallel" ∈ Split tags ',')
              CSI := decide ("csi" ∈ Split tags ',')
              UpgradeFromCurrent := decide ("upgrade" ∈ Split tags ',')
              UpgradeFromPrevious := decide ("upgrade-minor" ∈ Split tags ',')
              Serial := decide ("serial" ∈ Split tags ',') }) ∧
    (∀ tags : String, ",".intercalate (Split tags ',') = tags ∧
      ∀ piece ∈ Split tags ',', ',' ∉ piece.data) ∧
    readTSVFile (.parsed [["job", "variant", "extended"],
        ["job-a", "v1", "parallel,upgrade"], ["job-b", "v2", "serial"],
        ["job-a", "v3", "csi,upgrade-minor"]]) =
      .ok [("job-a", { Name := "v3", Parallel := false, CSI := true, UpgradeFromCurrent := false, UpgradeFromPrevious := true, Serial := false }),
           ("job-b", { Name := "v2", Parallel := false, CSI := false, UpgradeFromCurrent := false, UpgradeFromPrevious := false, Serial := true })] := by
  have hr : readRows [] (records.drop 1) = .ok t := by
    cases records with
    | nil => simp [readTSVFile] at h
    | cons hdr rows => simpa [readTSVFile] using h
  obtain ⟨hn, hmem⟩ := readRows_entries _ [] t (by simp [mapKeys]) hr
  refine ⟨hn, fun job => ?_, fun job v => ?_,
    fun tags => ⟨Split_intercalate tags ',', Split_free tags ','⟩, by decide⟩
  · rw [readRows_keys _ [] t hr job]
    simp [mapKeys]
  · rw [hmem job v]
    simp only [variantOf_eq]
    simp

/-- C3 at a concrete input: two rows for `job-a`, the later one wins. -/
theorem readTSVFile_last_row_wins_witness :
    readTSVFile (.parsed [["job", "variant", "extended"], ["job-a", "v1", "parallel"],
        ["job-b", "v2", "serial"], ["job-a", "v3", "csi"]]) =
      .ok [("job-a", { Name := "v3", Parallel := false, CSI := true, UpgradeFromCurrent := false, UpgradeFromPrevious := false, Serial := false }),
           ("job-b", { Name := "v2", Parallel := false, CSI := false, UpgradeFromCurrent := false, UpgradeFromPrevious := false, Serial := true })] ∧
    (mapKeys [("job-a", { Name := "v3", Parallel := false, CSI := true, UpgradeFromCurrent := false, UpgradeFromPrevious := false, Serial := false }),
           ("job-b", { Name := "v2", Parallel := false, CSI := false, UpgradeFromCurrent := false, UpgradeFromPrevious := false, Serial := true })]).Nodup :=
  ⟨by decide, (readTSVFile_last_row_wins
    [["job", "variant", "extended"], ["job-a", "v1", "parallel"],
      ["job-b", "v2", "serial"], ["job-a", "v3", "csi"]]
    [("job-a", { Name := "v3", Parallel := false, CSI := true, UpgradeFromCurrent := false, UpgradeFromPrevious := false, Serial := false }),
     ("job-b", { Name := "v2", Parallel := false, CSI := false, UpgradeFromCurrent := false, UpgradeFromPrevious := false, Serial := true })]
    (by decide)).1⟩

set_option maxRecDepth 100000 in
/-- C4: for a table (one entry per key, any iteration order) `sortedKeys` is strictly
ascending in the lexicographic order of strings, holds exactly the keys of the table,
each once, so as many as there are entries; and when the file is created and no write
fails, `generateGoFile` emits the entries in that order.  The table with keys `job-b`
and `job-a` is emitted with `job-a` first. -/
theorem sortedKeys_ascending (data : VariantMap) (h : (mapKeys data).Nodup) :
    (sortedKeys data).Sorted (· < ·) ∧
    (∀ k, k ∈ sortedKeys data ↔ k ∈ mapKeys data) ∧
    (sortedKeys data).Nodup ∧
    (sortedKeys data).length = data.length ∧
    (∀ env : Env, env.create = none → (∀ n, n < data.length + 2 → env.write n = none) →
      (generateGoFile env data).file = some (header ++
        String.join ((sortedKeys data).map fun job => entryLine job (mapIndex data job)) ++
        footer)) ∧
    sortedKeys [("job-b", variantOf "v2" "upgrade-minor"),
      ("job-a", variantOf "v1" "parallel,csi")] = ["job-a", "job-b"] ∧
    (generateGoFile okEnv [("job-b", variantOf "v2" "upgrade-minor"),
      ("job-a", variantOf "v1" "parallel,csi")]).file =
      some (header ++ entryLine "job-a" (variantOf "v1" "parallel,csi") ++
        entryLine "job-b" (variantOf "v2" "upgrade-minor") ++ footer) := by
  have hp : (sortedKeys data).Perm (mapKeys data) := sortStrings_perm _
  have hl : (sortedKeys data).length = data.length := by
    rw [hp.length_eq]
    simp [mapKeys]
  refine ⟨sortStrings_strict h, fun k => mem_sortStrings, hp.nodup_iff.2 h, hl, ?_, by decide,
    by decide⟩
  intro env hc hw
  have hb := generateBody_ok env data hc (fun n hn => hw n (by omega))
  simp only [generateGoFile, hb]
  cases env.gofmt <;> rfl

/-- C4 at the table of the spec's example. -/
theorem sortedKeys_ascending_witness :
    (mapKeys [("job-b", variantOf "v2" "upgrade-minor"),
      ("job-a", variantOf "v1" "parallel,csi")]).Nodup ∧
    (sortedKeys [("job-b", variantOf "v2" "upgrade-minor"),
      ("job-a", variantOf "v1" "parallel,csi")]).Sorted (· < ·) :=
  ⟨by decide, (sortedKeys_ascending [("job-b", variantOf "v2" "upgrade-minor"),
      ("job-a", variantOf "v1" "parallel,csi")] (by decide)).1⟩

/-- C5: what `generateGoFile` does depends on the contents of the table only, not on
the order in which the map is ranged over; and two lists of data rows that are
permutations of one another, with pairwise distinct job names, loaded under the same
header, give tables for which `generateGoFile` writes the same text and ends the same
way, whatever the outcome of the file operations. -/
theorem generateGoFile_deterministic (env : Env) (hdr : List String)
    (rows₁ rows₂ : List (List String)) (t₁ : VariantMap)
    (hp : rows₁.Perm rows₂) (hd : (rows₁.map fun row => row[0]?).Nodup)
    (h₁ : readTSVFile (.parsed (hdr :: rows₁)) = .ok t₁) :
    (∃ t₂, readTSVFile (.parsed (hdr :: rows₂)) = .ok t₂ ∧
      generateGoFile env t₁ = generateGoFile env t₂) ∧
    (∀ t : VariantMap, t.Perm t₁ → generateGoFile env t = generateGoFile env t₁) := by
  have hr : readRows [] rows₁ = .ok t₁ := by simpa [readTSVFile] using h₁
  have h3 : ∀ row ∈ rows₁, 3 ≤ row.length := readRows_ok_three rows₁ [] t₁ hr
  have h3' : ∀ row ∈ rows₂, 3 ≤ row.length := fun row hm => h3 row (hp.mem_iff.2 hm)
  have hd' : (rows₂.map fun row => row[0]?).Nodup := (hp.map _).nodup_iff.1 hd
  have e₁ := readRows_distinct rows₁ [] h3 hd (by simp [mapKeys])
  have e₂ := readRows_distinct rows₂ [] h3' hd' (by simp [mapKeys])
  rw [e₁] at hr
  have ht : t₁ = rows₁.map
      (fun l => (l.getD 0 "", variantOf (l.getD 1 "") (l.getD 2 ""))) := by
    simpa using (Result.ok.inj hr).symm
  have hn : (mapKeys t₁).Nodup := (readRows_entries rows₁ [] t₁ (by simp [mapKeys])
    (by rw [e₁, ht]; simp)).1
  refine ⟨⟨_, by simpa [readTSVFile] using e₂, ?_⟩, fun t hpt => ?_⟩
  · refine generateGoFile_congr env ?_ hn
    rw [ht]
    simpa using hp.map _
  · exact (generateGoFile_congr env hpt.symm hn).symm

/-- C5 at the rows of the spec's example, in both orders. -/
theorem generateGoFile_deterministic_witness :
    (∃ t₂, readTSVFile (.parsed [["job", "variant", "extended"],
        ["job-b", "v2", "upgrade-minor"], ["job-a", "v1", "parallel,csi"]]) = .ok t₂ ∧
      generateGoFile okEnv [("job-a", variantOf "v1" "parallel,csi"),
        ("job-b", variantOf "v2" "upgrade-minor")] = generateGoFile okEnv t₂) ∧
    (∀ t : VariantMap, t.Perm [("job-a", variantOf "v1" "parallel,csi"),
        ("job-b", variantOf "v2" "upgrade-minor")] →
      generateGoFile okEnv t = generateGoFile okEnv [("job-a", variantOf "v1" "parallel,csi"),
        ("job-b", variantOf "v2" "upgrade-minor")]) :=
  generateGoFile_deterministic okEnv ["job", "variant", "extended"]
    [["job-a", "v1", "parallel,csi"], ["job-b", "v2", "upgrade-minor"]]
    [["job-b", "v2", "upgrade-minor"], ["job-a", "v1", "parallel,csi"]]
    [("job-a", variantOf "v1" "parallel,csi"), ("job-b", variantOf "v2" "upgrade-minor")]
    (List.Perm.swap _ _ _) (by decide) (by decide)

set_option maxRecDepth 100000 in
/-- C6: when the file is created and none of the writes fails, the text `generateGoFile`
writes is the fixed header, then for each key of `sortedKeys` in turn the entry of that
key (the quoted key, then the labelled fields of the table's `Variant` for it), then
the fixed footer.  `sortedKeys` is in ascending order and holds the keys of the table
as often as the table does; in a table, with one entry per key, it is strictly
ascending and each key is emitted once, with the entry the table holds for it.  For
the empty table the text is the header followed by the footer. -/
theorem generateGoFile_text (env : Env) (data : VariantMap) (hc : env.create = none)
    (hw : ∀ n, n < (sortedKeys data).length + 2 → env.write n = none) :
    (generateGoFile env data).file = some ("\npackage generated\n\nimport\t\"github.com/bertinatto/testgrid/internal\"\n\n// This file is generated by go generate. DO NOT EDIT.\n\nvar Variants = map[string]internal.Variant\x7b\n" ++
      String.join ((sortedKeys data).map fun job =>
        "\n\"" ++ job ++ "\": \x7b\n\tName: \"" ++ (mapIndex data job).Name ++
        "\",\n\tParallel: " ++ toString (mapIndex data job).Parallel ++
        ",\n\tCSI: " ++ toString (mapIndex data job).CSI ++
        ",\n\tUpgradeFromPrevious: " ++ toString (mapIndex data job).UpgradeFromPrevious ++
        ",\n\tUpgradeFromCurrent: " ++ toString (mapIndex data job).UpgradeFromCurrent ++
        ",\n\tSerial: " ++ toString (mapIndex data job).Serial ++ ",\n\x7d,") ++
      "\n\x7d\n") ∧
    (sortedKeys data).Sorted (· ≤ ·) ∧
    (sortedKeys data).Perm (mapKeys data) ∧
    ((mapKeys data).Nodup →
      (sortedKeys data).Sorted (· < ·) ∧ (sortedKeys data).Nodup ∧
      ∀ job ∈ sortedKeys data, (job, mapIndex data job) ∈ data) ∧
    (generateGoFile okEnv []).file = some ("\npackage generated\n\nimport\t\"github.com/bertinatto/testgrid/internal\"\n\n// This file is generated by go generate. DO NOT EDIT.\n\nvar Variants = map[string]internal.Variant\x7b\n" ++ "\n\x7d\n") ∧
    (generateGoFile okEnv [("job-b", { Name := "v2", Parallel := false, CSI := false, UpgradeFromCurrent := false, UpgradeFromPrevious := true, Serial := false }),
        ("job-a", { Name := "v1", Parallel := true, CSI := true, UpgradeFromCurrent := false, UpgradeFromPrevious := false, Serial := false })]).file = some ("\npackage generated\n\nimport\t\"github.com/bertinatto/testgrid/internal\"\n\n// This file is generated by go generate. DO NOT EDIT.\n\nvar Variants = map[string]internal.Variant\x7b\n" ++
      "\n\"job-a\": \x7b\n\tName: \"v1\",\n\tParallel: true,\n\tCSI: true,\n\tUpgradeFromPrevious: false,\n\tUpgradeFromCurrent: false,\n\tSerial: false,\n\x7d," ++
      "\n\"job-b\": \x7b\n\tName: \"v2\",\n\tParallel: false,\n\tCSI: false,\n\tUpgradeFromPrevious: true,\n\tUpgradeFromCurrent: false,\n\tSerial: false,\n\x7d," ++
      "\n\x7d\n") := by
  have hp : (sortedKeys data).Perm (mapKeys data) := sortStrings_perm _
  refine ⟨?_, sortStrings_sorted _, hp, fun hn => ⟨sortStrings_strict hn,
    hp.nodup_iff.2 hn, fun job hj => ?_⟩, by decide, by decide⟩
  · have hb := generateBody_ok env data hc hw
    simp only [entryLine_eq, fmtBool_eq_toString] at hb
    simp only [generateGoFile, hb]
    cases env.gofmt <;> rfl
  · exact (mem_iff_mapIndex data hn job _).2 ⟨hp.mem_iff.1 hj, rfl⟩

/-- C6 at the table of the spec's example, every effect succeeding. -/
theorem generateGoFile_text_witness :
    okEnv.create = none ∧
    (sortedKeys [("job-b", variantOf "v2" "upgrade-minor"),
      ("job-a", variantOf "v1" "parallel,csi")]).Sorted (· ≤ ·) :=
  ⟨rfl, (generateGoFile_text okEnv [("job-b", variantOf "v2" "upgrade-minor"),
    ("job-a", variantOf "v1" "parallel,csi")] rfl (fun _ _ => rfl)).2.1⟩

set_option maxRecDepth 100000 in
/-- C7: the entry emitted for a key and its `Variant` carries the quoted key, the quoted
`Name` after `Name:`, and after each of `Parallel:`, `CSI:`, `UpgradeFromPrevious:`,
`UpgradeFromCurrent:` and `Serial:` the literal `true` or `false` of the field of that
same name. -/
theorem entryLine_fields (job : String) (v : Variant) :
    entryLine job v =
      "\n\"" ++ job ++ "\": \x7b\n\tName: \"" ++ v.Name ++
      "\",\n\tParallel: " ++ fmtBool v.Parallel ++
      ",\n\tCSI: " ++ fmtBool v.CSI ++
      ",\n\tUpgradeFromPrevious: " ++ fmtBool v.UpgradeFromPrevious ++
      ",\n\tUpgradeFromCurrent: " ++ fmtBool v.UpgradeFromCurrent ++
      ",\n\tSerial: " ++ fmtBool v.Serial ++ ",\n\x7d," ∧
    fmtBool true = "true" ∧ fmtBool false = "false" := by
  exact ⟨entryLine_eq job v, rfl, rfl⟩

/-- C8, at the failing input: `os.Create` fails (the directory of the output path is
missing) and the deferred `gofmt` run, started on the file that could not be created,
fails too.  The claim has `generateGoFile` return the creation error to its caller; the
process exits with status 1 instead, so the error never reaches the caller. -/
theorem generateGoFile_create_error_not_returned :
    (generateGoFile ⟨some "open out/variants.go: no such file or directory",
      fun _ => none, some "exit status 2"⟩ []).outcome = .exited 1 ∧
    ¬ (∀ (env : Env) (data : VariantMap) (e : String), env.create = some e →
        (generateGoFile env data).outcome = .returned (some e)) := by
  refine ⟨rfl, fun h => ?_⟩
  have h1 := h ⟨some "open out/variants.go: no such file or directory",
    fun _ => none, some "exit status 2"⟩ [] _ rfl
  revert h1
  decide

/-- How a call of `generateGoFile` ends.  When the `gofmt` run succeeds it returns the
error of `os.Create` if creating the file fails, else the error of the first of its
writes (header, one per key, footer) that fails, else `nil`.  When the `gofmt` run fails
the process exits with status 1, and nothing else makes it exit. -/
theorem generateGoFile_errors (env : Env) (data : VariantMap) :
    (env.gofmt = none →
      (∀ e, env.create = some e →
        (generateGoFile env data).outcome = .returned (some e)) ∧
      (∀ i e, env.create = none → i < (sortedKeys data).length + 2 →
        env.write i = some e → (∀ m, m < i → env.write m = none) →
        (generateGoFile env data).outcome = .returned (some e)) ∧
      (env.create = none → (∀ n, n < (sortedKeys data).length + 2 → env.write n = none) →
        (generateGoFile env data).outcome = .returned none)) ∧
    (∀ e, env.gofmt = some e → (generateGoFile env data).outcome = .exited 1) ∧
    (∀ s, (generateGoFile env data).outcome = .exited s ↔ (env.gofmt ≠ none ∧ s = 1)) := by
  refine ⟨fun hg => ⟨fun e hc => ?_, fun i e hc hi he hb => ?_, fun hc hw => ?_⟩,
    fun e hg => ?_, fun s => ?_⟩
  · simp only [generateGoFile, hg, generateBody_create env data e hc]
  · simp only [generateGoFile, hg, generateBody_fail env data hc i e hi he hb]
  · simp only [generateGoFile, hg, generateBody_ok env data hc hw]
  · simp only [generateGoFile, hg]
  · cases hg : env.gofmt with
    | none => simp [generateGoFile, hg]
    | some e => simp [generateGoFile, hg, eq_comm]

/-- A run in which creation fails and `gofmt` succeeds: the error is returned. -/
theorem generateGoFile_errors_witness :
    (generateGoFile ⟨some "permission denied", fun _ => none, none⟩ []).outcome =
      .returned (some "permission denied") :=
  ((generateGoFile_errors ⟨some "permission denied", fun _ => none, none⟩ []).1 rfl).1
    "permission denied" rfl

/-- C9: two record lists that differ in their first record only are loaded alike, and
every entry of the table comes from a data row: its key is the first field and its
`Name` the second field of a row after the header. -/
theorem readTSVFile_header_discarded (h₁ h₂ : List String) (rows : List (List String)) :
    readTSVFile (.parsed (h₁ :: rows)) = readTSVFile (.parsed (h₂ :: rows)) ∧
    (∀ t, readTSVFile (.parsed (h₁ :: rows)) = .ok t →
      ∀ job v, (job, v) ∈ t →
        ∃ row ∈ rows, row[0]? = some job ∧ row[1]? = some v.Name) := by
  refine ⟨rfl, fun t ht job v hm => ?_⟩
  have hr : readRows [] rows = .ok t := by simpa [readTSVFile] using ht
  obtain ⟨_, hmem⟩ := readRows_entries rows [] t (by simp [mapKeys]) hr
  rcases (hmem job v).1 hm with ⟨before, row, after, name, tags, e, h0, h1, _, _, hv⟩ | ⟨hd, _⟩
  · refine ⟨row, by rw [e]; simp, h0, ?_⟩
    rw [h1, hv]
    rfl
  · cases hd

/-- C9 at a concrete input: the header `job-h` does not become a key. -/
theorem readTSVFile_header_discarded_witness :
    readTSVFile (.parsed [["job-h", "vh", "serial"], ["job-a", "v1", "csi"]]) =
      readTSVFile (.parsed [["job", "variant", "extended"], ["job-a", "v1", "csi"]]) ∧
    readTSVFile (.parsed [["job-h", "vh", "serial"], ["job-a", "v1", "csi"]]) =
      .ok [("job-a", variantOf "v1" "csi")] :=
  ⟨(readTSVFile_header_discarded ["job-h", "vh", "serial"] ["job", "variant", "extended"]
    [["job-a", "v1", "csi"]]).1, by decide⟩

/-- C10: when every data row has at least three fields, the accesses to fields 0, 1 and
2 of each row succeed and `readTSVFile` returns a table; a record list whose data rows
have the same first three fields gives the same table. -/
theorem readTSVFile_three_fields (hdr : List String) (rows rows' : List (List String))
    (h : ∀ row ∈ rows, 3 ≤ row.length) (h' : ∀ row ∈ rows', 3 ≤ row.length)
    (he : rows.map (List.take 3) = rows'.map (List.take 3)) :
    (∃ t, readTSVFile (.parsed (hdr :: rows)) = .ok t ∧
      readTSVFile (.parsed (hdr :: rows')) = .ok t) ∧
    (∀ row ∈ rows, ∃ job name tags,
      index row 0 = .ok job ∧ index row 1 = .ok name ∧ index row 2 = .ok tags) := by
  constructor
  · obtain ⟨t, ht⟩ := readRows_total rows h []
    refine ⟨t, by simpa [readTSVFile] using ht, ?_⟩
    have e : readRows [] rows' = readRows [] rows := by
      rw [← readRows_take rows' h', ← readRows_take rows h, he]
    simpa [readTSVFile, e] using ht
  · intro row hm
    obtain ⟨job, name, tags, more, rfl⟩ := three_fields row (h row hm)
    exact ⟨job, name, tags, rfl, rfl, rfl⟩

/-- C10 at a concrete input: a fourth field changes nothing. -/
theorem readTSVFile_three_fields_witness :
    (∃ t, readTSVFile (.parsed [["job", "variant", "extended"],
        ["job-a", "v1", "csi", "extra"]]) = .ok t ∧
      readTSVFile (.parsed [["job", "variant", "extended"], ["job-a", "v1", "csi"]]) =
        .ok t) ∧
    (∀ row ∈ [["job-a", "v1", "csi", "extra"]], ∃ job name tags,
      index row 0 = .ok job ∧ index row 1 = .ok name ∧ index row 2 = .ok tags) :=
  readTSVFile_three_fields ["job", "variant", "extended"] [["job-a", "v1", "csi", "extra"]]
    [["job-a", "v1", "csi"]] (by decide) (by decide) (by decide)

end Variants
